import Mathlib

/-!
Shallow embedding of the core pipeline of the SCZ_AlphaGenome_Study
repository, together with proofs about the behaviour of each stage.

The four modelled stages and their source files:

* Locus clustering and proxy credible sets
  (`scripts/02_finemapping/build_credible_sets.py`):
  significance filter, chained 500 kb locus assignment, softmax-based proxy
  posterior probabilities, and the 95 % credible-set mask.
* Posterior-probability renormalization
  (`scripts/01_data_preparation/normalize_posterior_probs.py`):
  per-locus division by the locus sum.
* Multi-modal gene aggregation
  (`scripts/04_variant_to_gene/compute_gene_scores.py`):
  probability-weighted accumulation of per-gene effects into dictionaries.
* Empirical null calibration
  (`scripts/05_null_model/compute_empirical_zscores.py`):
  universe merge, genome-wide mean/std, z-scores, rank-based empirical
  p-values, and the final `raw_score > 0` output filter.

Numeric columns that the scripts manipulate with ordinary arithmetic
(p-value thresholds, probabilities, scores, ranks) are embedded as exact
rationals; quantities that go through `np.log10`, `np.exp` or `sqrt` are
embedded as real numbers.  IEEE division, whose result is non-finite when
the divisor is zero, is embedded as an `Option`-valued division (`fdiv`),
`none` standing for the non-finite float the script would produce.
-/

/-! ### Stage 1: locus clustering (`build_credible_sets.py`) -/

/-- One row of the significant-variant table: `CHR`, `BP`, `P` columns of
the daner GWAS summary file, as consumed by `create_proxy_credible_sets`. -/
structure GwasVariant where
  chr : Nat
  bp : Int
  pval : ℚ
deriving DecidableEq, Repr

/-- The row order produced by `sig.sort_values(['CHR', 'BP'])`:
lexicographic on chromosome then basepair position. -/
def variantLe (a b : GwasVariant) : Prop :=
  a.chr < b.chr ∨ (a.chr = b.chr ∧ a.bp ≤ b.bp)

instance : DecidableRel variantLe := fun a b => by
  unfold variantLe; infer_instance

/-- Embeds `sig = sig.sort_values(['CHR', 'BP'])` (stable sort on the
chromosome/position key). -/
def sortVariants (l : List GwasVariant) : List GwasVariant :=
  List.insertionSort variantLe l

/-- Embeds `sig = df[df['P'] < 5e-8]`: the genome-wide significance filter. -/
def sigFilter (l : List GwasVariant) : List GwasVariant :=
  l.filter (fun v => v.pval < 5e-8)

/-- The 500 kb clustering window (`b - last_bp > 500000` in the loop). -/
def lociWindow : Int := 500000

/-- The `if c != last_chr or (b - last_bp > 500000)` test of the
locus-assignment loop; `prev = none` models the initial `last_chr = None`
state, for which the chromosome test is always true in the script. -/
def newLocus (prev : Option (Nat × Int)) (v : GwasVariant) : Bool :=
  match prev with
  | none => true
  | some (lc, lb) => v.chr ≠ lc || v.bp - lb > lociWindow

/-- The locus-assignment loop of `create_proxy_credible_sets`, carrying
`(last_chr, last_bp)` (initially `None`, so the first row always opens a
new locus) and `current_locus` (initially 0, incremented before use). -/
def assignLociAux (prev : Option (Nat × Int)) (cur : Nat) :
    List GwasVariant → List Nat
  | [] => []
  | v :: rest =>
    let cur' := if newLocus prev v then cur + 1 else cur
    cur' :: assignLociAux (some (v.chr, v.bp)) cur' rest

/-- Locus ids (1-based) assigned to a list of rows in order, as in the
`for idx, row in sig.iterrows()` loop. -/
def assignLoci (l : List GwasVariant) : List Nat :=
  assignLociAux none 0 l

/-! ### Stage 2: proxy posterior probabilities (`calculate_proxy_pp`) -/

/-- Embeds `locus_df['P'].replace(0, 1e-300)`: the zero-p-value floor. -/
noncomputable def clampP (p : ℝ) : ℝ :=
  if p = 0 then 1e-300 else p

/-- Embeds `log_bf = -np.log10(p_values)` applied to a clamped p-value. -/
noncomputable def logBF (p : ℝ) : ℝ :=
  -(Real.logb 10 (clampP p))

/-- Embeds `series.max()` on a numeric column; the scripts only apply it to
non-empty locus groups, so the `[]` value is irrelevant. -/
def maxList : List ℝ → ℝ
  | [] => 0
  | x :: xs => xs.foldl max x

/-- Embeds `exp_val = np.exp(log_bf - max_val)` for one locus group. -/
noncomputable def expVals (ps : List ℝ) : List ℝ :=
  ps.map (fun p => Real.exp (logBF p - maxList (ps.map logBF)))

/-- Embeds `proxy_pp = exp_val / exp_val.sum()`: the numerically stable softmax of
`calculate_proxy_pp`, mapping the `P` column of one locus to its
`Proxy_PP` column. -/
noncomputable def proxyPP (ps : List ℝ) : List ℝ :=
  (expVals ps).map (fun e => e / (expVals ps).sum)

/-! ### Stage 2b: credible-set truncation (`create_proxy_credible_sets`) -/

/-- The credible-set mass threshold used in the script (`0.95`). -/
def credMass : ℚ := 95 / 100

/-- The row mask
`sig.groupby('Locus_ID')['Cumulative_PP'].shift(1).fillna(0) < 0.95`
applied to one locus group: a row is kept exactly when the cumulative
probability *before* it is strictly below the threshold.  `acc` is the
running cumulative sum of all rows already passed (kept or not). -/
def credibleTake (mass acc : ℚ) : List ℚ → List ℚ
  | [] => []
  | p :: rest =>
    if acc < mass then p :: credibleTake mass (acc + p) rest
    else credibleTake mass (acc + p) rest

/-- Embeds `sig.sort_values(['Locus_ID', 'Proxy_PP'], ascending=[True, False])`
restricted to one locus: stable sort of the probabilities, descending. -/
def sortDescQ (l : List ℚ) : List ℚ :=
  List.insertionSort (fun a b : ℚ => a ≥ b) l

/-- The per-locus credible set: sort the locus probabilities descending,
then keep the rows whose shifted cumulative sum is below the mass
threshold (`credible_sets = sig[mask]`). -/
def credibleSet (mass : ℚ) (l : List ℚ) : List ℚ :=
  credibleTake mass 0 (sortDescQ l)

/-! ### Alternative mode: renormalization (`normalize_posterior_probs.py`) -/

/-- Embeds `df.groupby('Locus_ID')['PP'].transform(lambda x: x / x.sum())` applied
to one locus group. -/
def normalizePP (l : List ℚ) : List ℚ :=
  l.map (fun x => x / l.sum)

/-! ### Stage 3: gene aggregation (`compute_gene_scores.py`) -/

/-- One input row of `aggregate_scores`: its (possibly missing) `Proxy_PP`
value and the parsed `{gene: effect}` map returned by
`parse_gene_scores(row)`. -/
structure VariantRow where
  pp : Option ℚ
  genes : List (String × ℚ)

/-- Embeds `df['Proxy_PP'] = df['Proxy_PP'].fillna(0.0)`: a missing probability
is read as 0.0. -/
def fillPP (r : VariantRow) : ℚ :=
  r.pp.getD 0

/-- The paired accumulator dictionaries `gene_weighted_sums` and
`gene_max_scores`, which always share their key set and insertion order:
each entry is `(gene, weighted_sum, max_score)`. -/
abbrev GeneAcc := List (String × ℚ × ℚ)

/-- One `for gene, effect in Variant_Genes.items()` iteration: initialize
the entry to `(0.0, 0.0)` when `gene` is new, then
`gene_weighted_sums[gene] += contribution` and
`gene_max_scores[gene] = max(gene_max_scores[gene], effect)`. -/
def updateGene (m : GeneAcc) (g : String) (contrib effect : ℚ) : GeneAcc :=
  match m with
  | [] => [(g, 0 + contrib, max 0 effect)]
  | e :: rest =>
    if e.1 = g then (e.1, e.2.1 + contrib, max e.2.2 effect) :: rest
    else e :: updateGene rest g contrib effect

/-- Processing one variant row: `contribution = effect * pp` for every
gene the row names. -/
def processRow (m : GeneAcc) (r : VariantRow) : GeneAcc :=
  r.genes.foldl (fun m ge => updateGene m ge.1 (ge.2 * fillPP r) ge.2) m

/-- The whole aggregation loop over the variant table, starting from the
empty dictionaries. -/
def aggregateRows (rows : List VariantRow) : GeneAcc :=
  rows.foldl processRow []

/-- Embeds `gene_weighted_sums[g]`, defaulting to 0 for absent keys. -/
def getW (m : GeneAcc) (g : String) : ℚ :=
  match m.find? (fun e => e.1 = g) with
  | some e => e.2.1
  | none => 0

/-- Embeds `gene_max_scores[g]`, defaulting to 0 for absent keys. -/
def getMx (m : GeneAcc) (g : String) : ℚ :=
  match m.find? (fun e => e.1 = g) with
  | some e => e.2.2
  | none => 0

/-- Whether `g` is a key of the accumulator dictionaries. -/
def hasGene (m : GeneAcc) (g : String) : Bool :=
  (m.find? (fun e => e.1 = g)).isSome

/-- One emitted result record,
`{'gene': g, 'weighted_score': w, 'max_score': mx}`, modelled as the
field-name/value list of the Python dict literal in `aggregate_scores`
(`n_variants` is only a comment in the source, not a key). -/
def resultRow (g : String) (w mx : ℚ) : List (String × (String ⊕ ℚ)) :=
  [("gene", Sum.inl g), ("weighted_score", Sum.inr w), ("max_score", Sum.inr mx)]

/-- Embeds `res_df = pd.DataFrame(results).sort_values('weighted_score', ascending=False)`. -/
def sortByW (m : GeneAcc) : GeneAcc :=
  List.insertionSort (fun a b : String × ℚ × ℚ => a.2.1 ≥ b.2.1) m

/-- The emitted result table of `aggregate_scores`: one record per
accumulated gene, sorted by weighted score descending. -/
def resultsOf (rows : List VariantRow) : List (List (String × (String ⊕ ℚ))) :=
  (sortByW (aggregateRows rows)).map (fun e => resultRow e.1 e.2.1 e.2.2)

/-! ### Stage 4: empirical null calibration (`compute_empirical_zscores.py`)

`calculate_empirical_stats` builds the full-genome table from the
universe gene list and the `gene -> weighted_score` map, computes
genome-wide mean/std, z-scores, ranks and rank-based empirical p-values,
and finally returns only the rows with `raw_score > 0`.  The gene column
of the weighted-score table is unique (it is the key set of the
aggregation dictionaries), so `dict(zip(...))` lookup is embedded as
`List.lookup` on the association list.  The z-score column is written
before the sort and never read by the sort/rank/filter steps, so it is
embedded as its own column function (`zScores`). -/

/-- The full-genome table: every universe gene with its score (0.0 when
absent from the score map), followed by every scored gene absent from the
universe (the defensive second loop of `calculate_empirical_stats`). -/
def fullGenome (uni : List String) (scores : List (String × ℚ)) :
    List (String × ℚ) :=
  uni.map (fun g => (g, ((scores.lookup g).getD 0)))
    ++ scores.filter (fun e => e.1 ∉ uni)

/-- Embeds `len(df)`: the total gene count of the full-genome table. -/
def nGenes (uni : List String) (scores : List (String × ℚ)) : ℕ :=
  (fullGenome uni scores).length

/-- Embeds `mu = df['raw_score'].mean()`. -/
def muOf (uni : List String) (scores : List (String × ℚ)) : ℚ :=
  ((fullGenome uni scores).map Prod.snd).sum / (nGenes uni scores : ℚ)

/-- The square of `sigma = df['raw_score'].std()`; pandas uses the sample
variance with `ddof=1`, i.e. division by `N - 1`. -/
def sigmaSqOf (uni : List String) (scores : List (String × ℚ)) : ℚ :=
  ((fullGenome uni scores).map
      (fun e => (e.2 - muOf uni scores) ^ 2)).sum
    / ((nGenes uni scores : ℚ) - 1)

/-- Embeds `sigma = df['raw_score'].std()`. -/
noncomputable def sigmaOf (uni : List String) (scores : List (String × ℚ)) : ℝ :=
  Real.sqrt ((sigmaSqOf uni scores : ℚ) : ℝ)

/-- IEEE float division as the scripts see it: a finite value when the
divisor is nonzero, a non-finite float (`inf`/`nan`, embedded as `none`)
when the divisor is zero. -/
noncomputable def fdiv (a b : ℝ) : Option ℝ :=
  if b = 0 then none else some (a / b)

/-- Embeds `df['z_score'] = (df['raw_score'] - mu) / sigma`, computed for every
gene of the full-genome table; the script has no guard for `sigma == 0`. -/
noncomputable def zScores (uni : List String) (scores : List (String × ℚ)) :
    List (String × Option ℝ) :=
  (fullGenome uni scores).map
    (fun e => (e.1, fdiv ((e.2 : ℝ) - ((muOf uni scores : ℚ) : ℝ))
      (sigmaOf uni scores)))

/-- One row of the ranked full-genome table. -/
structure GeneRow where
  gene : String
  raw_score : ℚ
  rank : ℕ
  p_empirical : ℚ
deriving DecidableEq, Repr

/-- Embeds `df = df.sort_values('raw_score', ascending=False)`: stable descending
sort on the score column. -/
def sortScoresDesc (l : List (String × ℚ)) : List (String × ℚ) :=
  List.insertionSort (fun a b : String × ℚ => a.2 ≥ b.2) l

/-- Embeds `df['rank'] = df.index + 1; df['p_empirical'] = df['rank'] / len(df)`
after `reset_index`: attach 1-based ranks and rank-over-count p-values in
list order.  `n` is the total gene count, `i` the 0-based index offset. -/
def attachRanks (n : ℕ) (i : ℕ) : List (String × ℚ) → List GeneRow
  | [] => []
  | e :: rest =>
    { gene := e.1, raw_score := e.2, rank := i + 1,
      p_empirical := ((i : ℚ) + 1) / (n : ℚ) } :: attachRanks n (i + 1) rest

/-- The full calibrated table (all universe genes, sorted and ranked). -/
def rankedTable (uni : List String) (scores : List (String × ℚ)) :
    List GeneRow :=
  attachRanks (nGenes uni scores) 0 (sortScoresDesc (fullGenome uni scores))

/-- Embeds `output_df = df[df['raw_score'] > 0]`: the table actually returned by
`calculate_empirical_stats` and saved to `gene_z_scores.csv`. -/
def outputTable (uni : List String) (scores : List (String × ℚ)) :
    List GeneRow :=
  (rankedTable uni scores).filter (fun r => 0 < r.raw_score)

/-! ### Concrete instances used in the closed checks below -/

/-- Three same-chromosome variants at positions 0, 400000 and 800000:
consecutive gaps are within the window, the endpoints are not.  The
p-value column plays no role in clustering; 0 stands for a maximally
significant hit. -/
def exChain : List GwasVariant :=
  [⟨1, 0, 0⟩, ⟨1, 400000, 0⟩, ⟨1, 800000, 0⟩]

/-- The spec scenario p-values of locus 1: 1e-10 and 1e-9. -/
noncomputable def exLocusPs : List ℝ := [1e-10, 1e-9]

/-- A two-variant locus with equal p-values (softmax-mode check input). -/
noncomputable def exEqualPs : List ℝ := [1e-8, 1e-8]

/-- Provided posterior probabilities whose locus sum is 4/5. -/
def exProvidedPP : List ℚ := [2 / 5, 2 / 5]

/-- Locus probabilities for the credible-set check. -/
def exCredPs : List ℚ := [6 / 10, 35 / 100, 3 / 100, 2 / 100]

/-- Gene names used by the concrete checks. -/
def gGRIN2A : String := "GRIN2A"

def gCACNA1C : String := "CACNA1C"

def gTP53 : String := "TP53"

def gDRD2 : String := "DRD2"

def gSETD1A : String := "SETD1A"

def gXPO7 : String := "XPO7"

def gHCN1 : String := "HCN1"

def gRBFOX1 : String := "RBFOX1"

/-- One aggregator row with probability 1 naming one gene. -/
def exRowsPos : List VariantRow := [⟨some 1, [(gGRIN2A, 2)]⟩]

/-- An aggregator row with probability exactly 0 naming one gene. -/
def exRowZero : VariantRow := ⟨some 0, [(gCACNA1C, 2)]⟩

/-- A mixed aggregator table: the gene of `exRowZero` is hit only by that
zero-probability row, while a second row carries positive probability. -/
def exRowsMixed : List VariantRow := [exRowZero, ⟨some 1, [(gGRIN2A, 3)]⟩]

/-- A two-gene universe for the null-calibrator checks. -/
def exUni : List String := [gTP53, gDRD2]

/-- A score table giving a positive score to one universe gene only. -/
def exScores : List (String × ℚ) := [(gTP53, 1)]

/-- A universe whose score table is empty: every raw score is 0. -/
def exUniFlat : List String := [gSETD1A, gXPO7]

/-- A universe/score pair for the rank check. -/
def exUniRank : List String := [gHCN1, gRBFOX1]

/-- Scores for the rank check: one gene scored 3, one unscored. -/
def exScoresRank : List (String × ℚ) := [(gRBFOX1, 3)]

/-! ### Lemmas on locus assignment -/

theorem newLocus_some_false_iff (lc : Nat) (lb : Int) (v : GwasVariant) :
    newLocus (some (lc, lb)) v = false ↔ (v.chr = lc ∧ v.bp - lb ≤ lociWindow) := by
  simp [newLocus, not_lt, Decidable.not_not]

theorem assignLociAux_cons (prev : Option (Nat × Int)) (cur : Nat)
    (v : GwasVariant) (rest : List GwasVariant) :
    assignLociAux prev cur (v :: rest) =
      (if newLocus prev v then cur + 1 else cur) ::
        assignLociAux (some (v.chr, v.bp))
          (if newLocus prev v then cur + 1 else cur) rest := by
  simp [assignLociAux]

/-- Consecutive rows get the same locus id exactly when they sit on the
same chromosome within the clustering window; general form of the loop
invariant, for any carried state. -/
theorem assignLociAux_consec (l : List GwasVariant) :
    ∀ (prev : Option (Nat × Int)) (cur i : ℕ) (u w : GwasVariant),
      l[i]? = some u → l[i + 1]? = some w →
      ((assignLociAux prev cur l)[i + 1]? = (assignLociAux prev cur l)[i]? ↔
        (w.chr = u.chr ∧ w.bp - u.bp ≤ lociWindow)) := by
  induction l with
  | nil => intro prev cur i u w hu _; simp at hu
  | cons v rest ih =>
    intro prev cur i u w hu hw
    match i with
    | 0 =>
      rw [List.getElem?_cons_zero, Option.some.injEq] at hu
      subst hu
      match rest, hw with
      | r :: rest', hw =>
        rw [List.getElem?_cons_succ, List.getElem?_cons_zero,
          Option.some.injEq] at hw
        subst hw
        rw [assignLociAux_cons, assignLociAux_cons]
        rcases hb : newLocus (some (v.chr, v.bp)) r with _ | _
        · rw [newLocus_some_false_iff] at hb
          simp [hb]
        · have hb' : ¬ (r.chr = v.chr ∧ r.bp - v.bp ≤ lociWindow) := by
            intro hc
            rw [← newLocus_some_false_iff v.chr v.bp r] at hc
            rw [hb] at hc
            exact Bool.noConfusion hc
          simp [hb]
          intro hc
          by_contra hlt
          push_neg at hlt
          exact hb' ⟨hc, by omega⟩
    | j + 1 =>
      rw [List.getElem?_cons_succ] at hu hw
      rw [assignLociAux_cons]
      rw [List.getElem?_cons_succ, List.getElem?_cons_succ]
      exact ih _ _ j u w hu hw

/-- C2: in the per-chromosome, ascending-position sort order, two
consecutive significant variants are assigned the same locus id if and
only if they are on the same chromosome and the position gap to the
immediately preceding variant does not exceed the 500000 bp window. -/
theorem clustering_consecutive_same_locus_iff (vs : List GwasVariant)
    (i : ℕ) (u w : GwasVariant)
    (hu : (sortVariants vs)[i]? = some u)
    (hw : (sortVariants vs)[i + 1]? = some w) :
    (assignLoci (sortVariants vs))[i + 1]? = (assignLoci (sortVariants vs))[i]?
      ↔ (w.chr = u.chr ∧ w.bp - u.bp ≤ lociWindow) :=
  assignLociAux_consec (sortVariants vs) none 0 i u w hu hw

/-- Closed check of C2 at the spec's chain scenario: positions 0, 400000,
800000 on one chromosome form a single locus (ids `[1, 1, 1]`), even
though the endpoints are 800000 > 500000 apart. -/
theorem clustering_consecutive_same_locus_iff_inst :
    assignLoci (sortVariants exChain) = [1, 1, 1] ∧
      (assignLoci (sortVariants exChain))[1]? =
        (assignLoci (sortVariants exChain))[0]? ∧
      (assignLoci (sortVariants exChain))[2]? =
        (assignLoci (sortVariants exChain))[1]? := by
  refine ⟨by decide, ?_, ?_⟩
  · exact (clustering_consecutive_same_locus_iff exChain 0
      ⟨1, 0, 0⟩ ⟨1, 400000, 0⟩
      (by decide) (by decide)).mpr (by decide)
  · exact (clustering_consecutive_same_locus_iff exChain 1
      ⟨1, 400000, 0⟩ ⟨1, 800000, 0⟩
      (by decide) (by decide)).mpr (by decide)

/-! ### Lemmas on credible-set truncation -/

theorem credibleTake_nil_of_ge (mass : ℚ) :
    ∀ (l : List ℚ) (acc : ℚ), (∀ p ∈ l, 0 ≤ p) → mass ≤ acc →
      credibleTake mass acc l = [] := by
  intro l
  induction l with
  | nil => intro acc _ _; rfl
  | cons p rest ih =>
    intro acc h0 hge
    rw [credibleTake, if_neg (not_lt.mpr hge)]
    exact ih (acc + p)
      (fun q hq => h0 q (List.mem_cons_of_mem _ hq))
      (le_add_of_le_of_nonneg hge (h0 p (List.mem_cons_self _ _)))

/-- General loop invariant of the mask filter: starting from any already
accumulated mass `acc`, the kept rows form the longest prefix along which
the running pre-inclusion mass stays below the threshold. -/
theorem credibleTake_spec (mass : ℚ) (l : List ℚ) :
    ∀ acc : ℚ, (∀ p ∈ l, 0 ≤ p) →
      ∃ k, credibleTake mass acc l = l.take k ∧
        (mass ≤ acc + (l.take k).sum ∨ k = l.length) ∧
        (∀ j < k, acc + (l.take j).sum < mass) := by
  induction l with
  | nil =>
    intro acc _
    exact ⟨0, rfl, Or.inr rfl, fun j hj => absurd hj (Nat.not_lt_zero j)⟩
  | cons p rest ih =>
    intro acc h0
    by_cases hlt : acc < mass
    · obtain ⟨k', hk1, hk2, hk3⟩ :=
        ih (acc + p) (fun q hq => h0 q (List.mem_cons_of_mem _ hq))
      refine ⟨k' + 1, ?_, ?_, ?_⟩
      · rw [credibleTake, if_pos hlt, hk1, List.take_succ_cons]
      · rcases hk2 with h | h
        · left
          rw [List.take_succ_cons, List.sum_cons, ← add_assoc]
          exact h
        · right
          simp [h]
      · intro j hj
        match j with
        | 0 => simpa using hlt
        | j' + 1 =>
          have h3 := hk3 j' (by omega)
          rw [List.take_succ_cons, List.sum_cons, ← add_assoc]
          exact h3
    · refine ⟨0, ?_, Or.inl (by simpa using not_lt.mp hlt),
        fun j hj => absurd hj (Nat.not_lt_zero j)⟩
      rw [credibleTake, if_neg hlt]
      exact credibleTake_nil_of_ge mass rest (acc + p)
        (fun q hq => h0 q (List.mem_cons_of_mem _ hq))
        (le_add_of_le_of_nonneg (not_lt.mp hlt) (h0 p (List.mem_cons_self _ _)))

/-- C3: for a locus with nonnegative probabilities carrying at least the
credible mass, the retained rows (those whose pre-inclusion cumulative
probability is strictly below the threshold, per the source mask) are
exactly the minimal prefix of the descending-sorted probabilities whose
cumulative mass first reaches the threshold: the prefix reaches the mass,
every shorter prefix — in particular the one obtained by removing the
last retained variant — stays strictly below it. -/
theorem credible_set_minimal_cover (ps : List ℚ)
    (h0 : ∀ p ∈ ps, 0 ≤ p) (hm : credMass ≤ ps.sum) :
    ∃ k, 0 < k ∧
      credibleSet credMass ps = (sortDescQ ps).take k ∧
      credMass ≤ ((sortDescQ ps).take k).sum ∧
      (∀ i, i < k ↔ ((sortDescQ ps).take i).sum < credMass) ∧
      ((sortDescQ ps).take (k - 1)).sum < credMass := by
  have hperm : List.Perm (sortDescQ ps) ps := List.perm_insertionSort _ ps
  have h0' : ∀ p ∈ sortDescQ ps, 0 ≤ p := fun p hp => h0 p (hperm.mem_iff.mp hp)
  obtain ⟨k, h1, h2, h3⟩ := credibleTake_spec credMass (sortDescQ ps) 0 h0'
  have hsum : (sortDescQ ps).sum = ps.sum := hperm.sum_eq
  have hcov : credMass ≤ ((sortDescQ ps).take k).sum := by
    rcases h2 with h | h
    · simpa using h
    · rw [h, List.take_length, hsum]; exact hm
  have hk0 : 0 < k := by
    rcases Nat.eq_zero_or_pos k with h | h
    · rw [h] at hcov
      norm_num [credMass] at hcov
    · exact h
  have h3' : ∀ j, j < k → ((sortDescQ ps).take j).sum < credMass := by
    intro j hj
    simpa using h3 j hj
  have hiff : ∀ i, i < k ↔ ((sortDescQ ps).take i).sum < credMass := by
    intro i
    refine ⟨h3' i, ?_⟩
    intro hsumi
    by_contra hik
    push_neg at hik
    have htk : (sortDescQ ps).take k = ((sortDescQ ps).take i).take k := by
      rw [List.take_take, min_eq_left hik]
    have hsub : List.Sublist ((sortDescQ ps).take k) ((sortDescQ ps).take i) := by
      rw [htk]
      exact List.take_sublist k _
    have hmono : ((sortDescQ ps).take k).sum ≤ ((sortDescQ ps).take i).sum :=
      List.Sublist.sum_le_sum hsub
        (fun a ha => h0' a (List.take_subset i _ ha))
    exact absurd hsumi (not_lt.mpr (le_trans hcov hmono))
  exact ⟨k, hk0, h1, hcov, hiff, h3' (k - 1) (by omega)⟩

/-- Closed check of C3 on the locus `[0.6, 0.35, 0.03, 0.02]` (sum 1):
the credible set is a minimal threshold-reaching prefix. -/
theorem credible_set_minimal_cover_inst :
    (∀ p ∈ exCredPs, 0 ≤ p) ∧ credMass ≤ exCredPs.sum ∧
      (∃ k, 0 < k ∧
        credibleSet credMass exCredPs = (sortDescQ exCredPs).take k ∧
        credMass ≤ ((sortDescQ exCredPs).take k).sum ∧
        (∀ i, i < k ↔ ((sortDescQ exCredPs).take i).sum < credMass) ∧
        ((sortDescQ exCredPs).take (k - 1)).sum < credMass) :=
  ⟨by norm_num [exCredPs], by norm_num [exCredPs, credMass],
    credible_set_minimal_cover exCredPs (by norm_num [exCredPs])
      (by norm_num [exCredPs, credMass])⟩

/-! ### Lemmas on the probability calibrator -/

theorem list_sum_map_div {K : Type*} [DivisionRing K] (l : List K) (c : K) :
    (l.map (fun x => x / c)).sum = l.sum / c := by
  induction l with
  | nil => simp
  | cons x xs ih => simp [ih, add_div]

theorem expVals_pos (ps : List ℝ) : ∀ e ∈ expVals ps, 0 < e := by
  intro e he
  rw [expVals, List.mem_map] at he
  obtain ⟨p, _, rfl⟩ := he
  exact Real.exp_pos _

theorem expVals_sum_pos (ps : List ℝ) (h : ps ≠ []) : 0 < (expVals ps).sum := by
  refine List.sum_pos _ (expVals_pos ps) ?_
  simpa [expVals] using h

/-- The softmax output of `calculate_proxy_pp` sums to exactly 1 for any
non-empty locus (real-arithmetic semantics). -/
theorem proxyPP_sum (ps : List ℝ) (h : ps ≠ []) : (proxyPP ps).sum = 1 := by
  rw [proxyPP, list_sum_map_div]
  exact div_self (ne_of_gt (expVals_sum_pos ps h))

/-- The renormalization mode sums to exactly 1 whenever the locus sum of
the provided probabilities is nonzero. -/
theorem normalizePP_sum (l : List ℚ) (h : l.sum ≠ 0) : (normalizePP l).sum = 1 := by
  rw [normalizePP, list_sum_map_div]
  exact div_self h

/-- C4 (amended): for every non-empty locus, the softmax-recomputation
probabilities sum to 1.0 within 1e-10; the renormalization-mode
probabilities do too, provided the locus's existing probabilities have a
nonzero sum (an all-zero locus is renormalized by a zero divisor and
violates the bound — see the counterexample). -/
theorem pp_sums_to_one (ps : List ℝ) (hne : ps ≠ [])
    (pps : List ℚ) (hsum : pps.sum ≠ 0) :
    |(proxyPP ps).sum - 1| ≤ 1e-10 ∧ |(normalizePP pps).sum - 1| ≤ 1e-10 := by
  rw [proxyPP_sum ps hne, normalizePP_sum pps hsum]
  norm_num

/-- Closed check of C4's amended statement on a two-variant locus with
equal p-values and a provided-probability locus summing to 4/5. -/
theorem pp_sums_to_one_inst :
    exEqualPs ≠ [] ∧ exProvidedPP.sum ≠ 0 ∧
      |(proxyPP exEqualPs).sum - 1| ≤ 1e-10 ∧
      |(normalizePP exProvidedPP).sum - 1| ≤ 1e-10 := by
  have h := pp_sums_to_one exEqualPs (by simp [exEqualPs])
    exProvidedPP (by norm_num [exProvidedPP])
  exact ⟨by simp [exEqualPs], by norm_num [exProvidedPP], h.1, h.2⟩

/-- C4 counterexample: the single-variant locus `[0.0]` is non-empty, but
renormalization divides by the zero locus sum, so the output does not sum
to 1.0 within 1e-10 (exact semantics give sum 0; NumPy gives `nan` — in
either semantics the tolerance bound fails). -/
theorem renormalize_zero_sum_not_one :
    ¬ |(normalizePP [(0 : ℚ)]).sum - 1| ≤ 1e-10 := by
  norm_num [normalizePP]

theorem logBF_strict_anti (p q : ℝ) (hp : 0 < p) (hpq : p < q) :
    logBF q < logBF p := by
  rw [logBF, logBF, neg_lt_neg_iff]
  rw [clampP, if_neg (ne_of_gt hp), clampP, if_neg (ne_of_gt (lt_trans hp hpq))]
  exact Real.logb_lt_logb (by norm_num) hp hpq

/-- C8: within one locus, the softmax calibrator is strictly
order-reversing in the p-value: a strictly smaller (positive) p-value
receives a strictly larger log-weight and a strictly larger probability. -/
theorem softmax_order_reversing (ps : List ℝ) (i j : ℕ) (pi pj : ℝ)
    (hi : ps[i]? = some pi) (hj : ps[j]? = some pj)
    (hpos : 0 < pi) (hlt : pi < pj) :
    ∃ qi qj, (proxyPP ps)[i]? = some qi ∧ (proxyPP ps)[j]? = some qj ∧
      qj < qi ∧ logBF pj < logBF pi := by
  have hne : ps ≠ [] := by
    intro h
    rw [h] at hi
    simp at hi
  have hS : 0 < (expVals ps).sum := expVals_sum_pos ps hne
  refine ⟨Real.exp (logBF pi - maxList (ps.map logBF)) / (expVals ps).sum,
    Real.exp (logBF pj - maxList (ps.map logBF)) / (expVals ps).sum, ?_, ?_, ?_, ?_⟩
  · rw [proxyPP, List.getElem?_map, expVals, List.getElem?_map, hi]
    rfl
  · rw [proxyPP, List.getElem?_map, expVals, List.getElem?_map, hj]
    rfl
  · refine (div_lt_div_iff_of_pos_right hS).mpr (Real.exp_lt_exp.mpr ?_)
    have := logBF_strict_anti pi pj hpos hlt
    linarith
  · exact logBF_strict_anti pi pj hpos hlt

/-- Closed check of C8 at the spec scenario p-values 1e-10 vs 1e-9: the
more significant variant gets the larger probability and log-weight. -/
theorem softmax_order_reversing_inst :
    (0 : ℝ) < 1e-10 ∧ (1e-10 : ℝ) < 1e-9 ∧
      (∃ qi qj, (proxyPP exLocusPs)[0]? = some qi ∧
        (proxyPP exLocusPs)[1]? = some qj ∧
        qj < qi ∧ logBF 1e-9 < logBF 1e-10) :=
  ⟨by norm_num, by norm_num,
    softmax_order_reversing exLocusPs 0 1 1e-10 1e-9
      (by simp [exLocusPs]) (by simp [exLocusPs]) (by norm_num) (by norm_num)⟩

/-! ### Lemmas on gene aggregation -/

theorem getW_cons_pos (hd : String × ℚ × ℚ) (m : GeneAcc) (g : String)
    (h : hd.1 = g) : getW (hd :: m) g = hd.2.1 := by
  simp [getW, List.find?, h]

theorem getW_cons_neg (hd : String × ℚ × ℚ) (m : GeneAcc) (g : String)
    (h : hd.1 ≠ g) : getW (hd :: m) g = getW m g := by
  simp [getW, List.find?, h]

theorem getMx_cons_pos (hd : String × ℚ × ℚ) (m : GeneAcc) (g : String)
    (h : hd.1 = g) : getMx (hd :: m) g = hd.2.2 := by
  simp [getMx, List.find?, h]

theorem getMx_cons_neg (hd : String × ℚ × ℚ) (m : GeneAcc) (g : String)
    (h : hd.1 ≠ g) : getMx (hd :: m) g = getMx m g := by
  simp [getMx, List.find?, h]

theorem hasGene_cons_pos (hd : String × ℚ × ℚ) (m : GeneAcc) (g : String)
    (h : hd.1 = g) : hasGene (hd :: m) g = true := by
  simp [hasGene, List.find?, h]

theorem hasGene_cons_neg (hd : String × ℚ × ℚ) (m : GeneAcc) (g : String)
    (h : hd.1 ≠ g) : hasGene (hd :: m) g = hasGene m g := by
  simp [hasGene, List.find?, h]

theorem updateGene_cons_pos (hd : String × ℚ × ℚ) (m : GeneAcc)
    (g : String) (c e : ℚ) (h : hd.1 = g) :
    updateGene (hd :: m) g c e = (hd.1, hd.2.1 + c, max hd.2.2 e) :: m := by
  simp [updateGene, h]

theorem updateGene_cons_neg (hd : String × ℚ × ℚ) (m : GeneAcc)
    (g : String) (c e : ℚ) (h : hd.1 ≠ g) :
    updateGene (hd :: m) g c e = hd :: updateGene m g c e := by
  simp [updateGene, h]

theorem getW_updateGene_self (m : GeneAcc) (g : String) (c e : ℚ) :
    getW (updateGene m g c e) g = getW m g + c := by
  induction m with
  | nil => simp [updateGene, getW, List.find?]
  | cons hd rest ih =>
    by_cases h : hd.1 = g
    · rw [updateGene_cons_pos hd rest g c e h,
        getW_cons_pos (hd.1, hd.2.1 + c, max hd.2.2 e) rest g h,
        getW_cons_pos hd rest g h]
    · rw [updateGene_cons_neg hd rest g c e h,
        getW_cons_neg _ _ _ h, getW_cons_neg _ _ _ h]
      exact ih

theorem getW_updateGene_ne (m : GeneAcc) (k g : String) (c e : ℚ)
    (h : k ≠ g) : getW (updateGene m k c e) g = getW m g := by
  induction m with
  | nil => simp [updateGene, getW, List.find?, h]
  | cons hd rest ih =>
    by_cases hh : hd.1 = k
    · rw [updateGene_cons_pos hd rest k c e hh]
      have hg : hd.1 ≠ g := by rw [hh]; exact h
      rw [getW_cons_neg (hd.1, hd.2.1 + c, max hd.2.2 e) rest g hg,
        getW_cons_neg hd rest g hg]
    · rw [updateGene_cons_neg hd rest k c e hh]
      by_cases hg : hd.1 = g
      · rw [getW_cons_pos _ _ _ hg, getW_cons_pos _ _ _ hg]
      · rw [getW_cons_neg _ _ _ hg, getW_cons_neg _ _ _ hg]
        exact ih

theorem getMx_updateGene_self (m : GeneAcc) (g : String) (c e : ℚ) :
    getMx (updateGene m g c e) g = max (getMx m g) e := by
  induction m with
  | nil => simp [updateGene, getMx, List.find?]
  | cons hd rest ih =>
    by_cases h : hd.1 = g
    · rw [updateGene_cons_pos hd rest g c e h,
        getMx_cons_pos (hd.1, hd.2.1 + c, max hd.2.2 e) rest g h,
        getMx_cons_pos hd rest g h]
    · rw [updateGene_cons_neg hd rest g c e h,
        getMx_cons_neg _ _ _ h, getMx_cons_neg _ _ _ h]
      exact ih

theorem getMx_updateGene_ne (m : GeneAcc) (k g : String) (c e : ℚ)
    (h : k ≠ g) : getMx (updateGene m k c e) g = getMx m g := by
  induction m with
  | nil => simp [updateGene, getMx, List.find?, h]
  | cons hd rest ih =>
    by_cases hh : hd.1 = k
    · rw [updateGene_cons_pos hd rest k c e hh]
      have hg : hd.1 ≠ g := by rw [hh]; exact h
      rw [getMx_cons_neg (hd.1, hd.2.1 + c, max hd.2.2 e) rest g hg,
        getMx_cons_neg hd rest g hg]
    · rw [updateGene_cons_neg hd rest k c e hh]
      by_cases hg : hd.1 = g
      · rw [getMx_cons_pos _ _ _ hg, getMx_cons_pos _ _ _ hg]
      · rw [getMx_cons_neg _ _ _ hg, getMx_cons_neg _ _ _ hg]
        exact ih

theorem hasGene_updateGene_self (m : GeneAcc) (g : String) (c e : ℚ) :
    hasGene (updateGene m g c e) g = true := by
  induction m with
  | nil => simp [updateGene, hasGene, List.find?]
  | cons hd rest ih =>
    by_cases h : hd.1 = g
    · rw [updateGene_cons_pos hd rest g c e h]
      exact hasGene_cons_pos _ _ _ h
    · rw [updateGene_cons_neg hd rest g c e h, hasGene_cons_neg _ _ _ h]
      exact ih

theorem hasGene_updateGene_mono (m : GeneAcc) (k g : String) (c e : ℚ)
    (h : hasGene m g = true) : hasGene (updateGene m k c e) g = true := by
  by_cases hk : k = g
  · rw [hk]; exact hasGene_updateGene_self m g c e
  · induction m with
    | nil => simp [hasGene, List.find?] at h
    | cons hd rest ih =>
      by_cases hh : hd.1 = k
      · rw [updateGene_cons_pos hd rest k c e hh]
        have hg : hd.1 ≠ g := by rw [hh]; exact hk
        rw [hasGene_cons_neg (hd.1, hd.2.1 + c, max hd.2.2 e) rest g hg]
        rw [hasGene_cons_neg hd rest g hg] at h
        exact h
      · rw [updateGene_cons_neg hd rest k c e hh]
        by_cases hg : hd.1 = g
        · exact hasGene_cons_pos _ _ _ hg
        · rw [hasGene_cons_neg _ _ _ hg]
          rw [hasGene_cons_neg _ _ _ hg] at h
          exact ih h

theorem getMx_updateGene_le (m : GeneAcc) (k g : String) (c e : ℚ) :
    getMx m g ≤ getMx (updateGene m k c e) g := by
  by_cases hk : k = g
  · rw [hk, getMx_updateGene_self]
    exact le_max_left _ _
  · rw [getMx_updateGene_ne m k g c e hk]

theorem find?_eq_of_hasGene (m : GeneAcc) (g : String)
    (h : hasGene m g = true) :
    m.find? (fun en => en.1 = g) = some (g, getW m g, getMx m g) := by
  induction m with
  | nil => simp [hasGene, List.find?] at h
  | cons hd rest ih =>
    by_cases hh : hd.1 = g
    · rw [getW_cons_pos _ _ _ hh, getMx_cons_pos _ _ _ hh]
      rw [List.find?_cons_of_pos _ (by simp [hh])]
      rw [← hh]
    · rw [getW_cons_neg _ _ _ hh, getMx_cons_neg _ _ _ hh]
      rw [hasGene_cons_neg _ _ _ hh] at h
      rw [List.find?_cons_of_neg _ (by simp [hh])]
      exact ih h

theorem getW_foldl_genes (gl : List (String × ℚ)) (pp : ℚ) :
    ∀ (m : GeneAcc) (g : String),
      getW (gl.foldl (fun m ge => updateGene m ge.1 (ge.2 * pp) ge.2) m) g =
        getW m g + ((gl.filter (fun ge => ge.1 = g)).map Prod.snd).sum * pp := by
  induction gl with
  | nil => intro m g; simp
  | cons ge rest ih =>
    intro m g
    rw [List.foldl_cons, ih]
    by_cases h : ge.1 = g
    · subst h
      rw [getW_updateGene_self]
      have hfil : (ge :: rest).filter (fun x => x.1 = ge.1) =
          ge :: rest.filter (fun x => x.1 = ge.1) := by
        simp [List.filter_cons]
      rw [hfil, List.map_cons, List.sum_cons]
      ring
    · rw [getW_updateGene_ne _ _ _ _ _ h]
      simp [List.filter_cons, h]

theorem getW_processRow (m : GeneAcc) (r : VariantRow) (g : String) :
    getW (processRow m r) g =
      getW m g +
        ((r.genes.filter (fun ge => ge.1 = g)).map Prod.snd).sum * fillPP r :=
  getW_foldl_genes r.genes (fillPP r) m g

theorem getW_zero_rows_dropped (rows : List VariantRow) :
    ∀ (m₁ m₂ : GeneAcc), (∀ g, getW m₁ g = getW m₂ g) → ∀ g,
      getW (rows.foldl processRow m₁) g =
        getW ((rows.filter (fun r => fillPP r ≠ 0)).foldl processRow m₂) g := by
  induction rows with
  | nil => intro m₁ m₂ h g; simpa using h g
  | cons r rest ih =>
    intro m₁ m₂ h g
    by_cases hz : fillPP r = 0
    · have hfil : (r :: rest).filter (fun r => fillPP r ≠ 0) =
          rest.filter (fun r => fillPP r ≠ 0) := by
        simp [List.filter_cons, hz]
      rw [hfil, List.foldl_cons]
      refine ih _ _ (fun g' => ?_) g
      rw [getW_processRow, hz, mul_zero, add_zero]
      exact h g'
    · have hfil : (r :: rest).filter (fun r => fillPP r ≠ 0) =
          r :: rest.filter (fun r => fillPP r ≠ 0) := by
        simp [List.filter_cons, hz]
      rw [hfil, List.foldl_cons, List.foldl_cons]
      refine ih _ _ (fun g' => ?_) g
      rw [getW_processRow, getW_processRow, h g']

/-- C7: `aggregate_scores` reads a missing `Proxy_PP` as probability 0.0
(processing a row with a missing probability is the same operation as
processing it with probability 0.0), and probability-0.0 rows contribute
exactly 0.0 to every gene's weighted score: dropping every such row
leaves every gene's accumulated weighted score unchanged. -/
theorem missing_and_zero_prob_contribute_nothing
    (m : GeneAcc) (genes : List (String × ℚ))
    (rows : List VariantRow) (g : String) :
    processRow m ⟨none, genes⟩ = processRow m ⟨some 0, genes⟩ ∧
      getW (aggregateRows rows) g =
        getW (aggregateRows (rows.filter (fun r => fillPP r ≠ 0))) g :=
  ⟨rfl, getW_zero_rows_dropped rows [] [] (fun _ => rfl) g⟩

theorem hasGene_foldl_genes_mono (gl : List (String × ℚ)) (pp : ℚ) :
    ∀ (m : GeneAcc) (g : String), hasGene m g = true →
      hasGene (gl.foldl (fun m ge => updateGene m ge.1 (ge.2 * pp) ge.2) m) g
        = true := by
  induction gl with
  | nil => intro m g h; exact h
  | cons ge rest ih =>
    intro m g h
    rw [List.foldl_cons]
    exact ih _ g (hasGene_updateGene_mono m ge.1 g _ _ h)

theorem hasGene_foldl_genes_of_mem (gl : List (String × ℚ)) (pp : ℚ) :
    ∀ (m : GeneAcc) (g : String) (e : ℚ), (g, e) ∈ gl →
      hasGene (gl.foldl (fun m ge => updateGene m ge.1 (ge.2 * pp) ge.2) m) g
        = true := by
  induction gl with
  | nil => intro m g e h; simp at h
  | cons ge rest ih =>
    intro m g e h
    rw [List.foldl_cons]
    rcases List.mem_cons.mp h with h1 | h1
    · have hkey : ge.1 = g := by rw [← h1]
      have h2 : hasGene (updateGene m ge.1 (ge.2 * pp) ge.2) g = true := by
        rw [← hkey]
        exact hasGene_updateGene_self m ge.1 _ _
      exact hasGene_foldl_genes_mono rest pp _ g h2
    · exact ih _ g e h1

theorem getMx_foldl_genes_mono (gl : List (String × ℚ)) (pp : ℚ) :
    ∀ (m : GeneAcc) (g : String),
      getMx m g ≤
        getMx (gl.foldl (fun m ge => updateGene m ge.1 (ge.2 * pp) ge.2) m) g := by
  induction gl with
  | nil => intro m g; exact le_refl _
  | cons ge rest ih =>
    intro m g
    rw [List.foldl_cons]
    exact le_trans (getMx_updateGene_le m ge.1 g _ _) (ih _ g)

theorem getMx_foldl_genes_of_mem (gl : List (String × ℚ)) (pp : ℚ) :
    ∀ (m : GeneAcc) (g : String) (e : ℚ), (g, e) ∈ gl →
      e ≤ getMx (gl.foldl (fun m ge => updateGene m ge.1 (ge.2 * pp) ge.2) m) g := by
  induction gl with
  | nil => intro m g e h; simp at h
  | cons ge rest ih =>
    intro m g e h
    rw [List.foldl_cons]
    rcases List.mem_cons.mp h with h1 | h1
    · have hkey : ge.1 = g := by rw [← h1]
      have hval : ge.2 = e := by rw [← h1]
      have h2 : e ≤ getMx (updateGene m ge.1 (ge.2 * pp) ge.2) g := by
        rw [← hkey, getMx_updateGene_self, ← hval]
        exact le_max_right _ _
      exact le_trans h2 (getMx_foldl_genes_mono rest pp _ g)
    · exact ih _ g e h1

theorem hasGene_foldl_rows_mono (rows : List VariantRow) :
    ∀ (m : GeneAcc) (g : String), hasGene m g = true →
      hasGene (rows.foldl processRow m) g = true := by
  induction rows with
  | nil => intro m g h; exact h
  | cons r rest ih =>
    intro m g h
    rw [List.foldl_cons]
    exact ih _ g (hasGene_foldl_genes_mono r.genes (fillPP r) m g h)

theorem getMx_foldl_rows_mono (rows : List VariantRow) :
    ∀ (m : GeneAcc) (g : String),
      getMx m g ≤ getMx (rows.foldl processRow m) g := by
  induction rows with
  | nil => intro m g; exact le_refl _
  | cons r rest ih =>
    intro m g
    rw [List.foldl_cons]
    exact le_trans (getMx_foldl_genes_mono r.genes (fillPP r) m g) (ih _ g)

theorem hasGene_aggregate_of_mem (rows : List VariantRow) :
    ∀ (m : GeneAcc) (r : VariantRow) (g : String) (e : ℚ),
      r ∈ rows → (g, e) ∈ r.genes →
      hasGene (rows.foldl processRow m) g = true := by
  induction rows with
  | nil => intro m r g e hr _; simp at hr
  | cons r0 rest ih =>
    intro m r g e hr hg
    rw [List.foldl_cons]
    rcases List.mem_cons.mp hr with h1 | h1
    · subst h1
      exact hasGene_foldl_rows_mono rest _ g
        (hasGene_foldl_genes_of_mem r.genes (fillPP r) m g e hg)
    · exact ih _ r g e h1 hg

theorem getMx_aggregate_of_mem (rows : List VariantRow) :
    ∀ (m : GeneAcc) (r : VariantRow) (g : String) (e : ℚ),
      r ∈ rows → (g, e) ∈ r.genes →
      e ≤ getMx (rows.foldl processRow m) g := by
  induction rows with
  | nil => intro m r g e hr _; simp at hr
  | cons r0 rest ih =>
    intro m r g e hr hg
    rw [List.foldl_cons]
    rcases List.mem_cons.mp hr with h1 | h1
    · subst h1
      exact le_trans (getMx_foldl_genes_of_mem r.genes (fillPP r) m g e hg)
        (getMx_foldl_rows_mono rest _ g)
    · exact ih _ r g e h1 hg

theorem getW_allzero_rows (rows : List VariantRow)
    (hz : ∀ r ∈ rows, fillPP r = 0) :
    ∀ (m : GeneAcc) (g : String),
      getW (rows.foldl processRow m) g = getW m g := by
  induction rows with
  | nil => intro m g; rfl
  | cons r rest ih =>
    intro m g
    rw [List.foldl_cons]
    rw [ih (fun r' hr' => hz r' (List.mem_cons_of_mem _ hr')) _ g]
    rw [getW_processRow, hz r (List.mem_cons_self _ _), mul_zero, add_zero]

/-- The weighted accumulator of a gene is untouched by the whole table
whenever every row that names this gene has probability 0, regardless of
the probabilities of the other rows. -/
theorem getW_gene_zero_rows (g : String) :
    ∀ rows : List VariantRow,
      (∀ r ∈ rows, ∀ e', (g, e') ∈ r.genes → fillPP r = 0) →
      ∀ m : GeneAcc, getW (rows.foldl processRow m) g = getW m g := by
  intro rows
  induction rows with
  | nil => intro _ m; rfl
  | cons r rest ih =>
    intro hz m
    rw [List.foldl_cons,
      ih (fun r' hr' e' he' => hz r' (List.mem_cons_of_mem _ hr') e' he') _]
    rw [getW_processRow]
    by_cases hname : ∃ e', (g, e') ∈ r.genes
    · obtain ⟨e', he'⟩ := hname
      rw [hz r (List.mem_cons_self _ _) e' he', mul_zero, add_zero]
    · have hfil : r.genes.filter (fun ge => ge.1 = g) = [] := by
        rw [List.filter_eq_nil_iff]
        intro ge hge hp
        apply hname
        refine ⟨ge.2, ?_⟩
        have hkey : ge.1 = g := by simpa using hp
        rw [← hkey]
        exact hge
      rw [hfil]
      simp

/-- C10: any variant row — probability 0.0 included — creates the
accumulator record for every gene it names and folds the row's unweighted
effect into that gene's `max_score`; and whenever every row naming a
given gene has probability 0.0 (other rows of the table are arbitrary),
that gene appears in the emitted table with `weighted_score` 0.0 and a
`max_score` at least the named effect. -/
theorem zero_prob_rows_still_recorded (rows : List VariantRow)
    (r : VariantRow) (g : String) (e : ℚ)
    (hr : r ∈ rows) (hg : (g, e) ∈ r.genes) :
    hasGene (aggregateRows rows) g = true ∧
      e ≤ getMx (aggregateRows rows) g ∧
      ((∀ r' ∈ rows, ∀ e', (g, e') ∈ r'.genes → fillPP r' = 0) →
        (aggregateRows rows).find? (fun en => en.1 = g) =
            some (g, 0, getMx (aggregateRows rows) g) ∧
          resultRow g 0 (getMx (aggregateRows rows) g) ∈ resultsOf rows) := by
  have hhas : hasGene (aggregateRows rows) g = true :=
    hasGene_aggregate_of_mem rows [] r g e hr hg
  refine ⟨hhas, getMx_aggregate_of_mem rows [] r g e hr hg, ?_⟩
  intro hz
  have hw : getW (aggregateRows rows) g = 0 := by
    have h0 := getW_gene_zero_rows g rows hz []
    have h00 : getW ([] : GeneAcc) g = 0 := by simp [getW, List.find?]
    rw [aggregateRows, h0, h00]
  have hfind := find?_eq_of_hasGene _ g hhas
  rw [hw] at hfind
  refine ⟨hfind, ?_⟩
  have hmem : (g, (0 : ℚ), getMx (aggregateRows rows) g) ∈ aggregateRows rows :=
    List.mem_of_find?_eq_some hfind
  have hmem2 : (g, (0 : ℚ), getMx (aggregateRows rows) g)
      ∈ sortByW (aggregateRows rows) :=
    ((List.perm_insertionSort _ _).mem_iff).mpr hmem
  have hmap := List.mem_map_of_mem
    (fun en : String × ℚ × ℚ => resultRow en.1 en.2.1 en.2.2) hmem2
  simpa [resultsOf] using hmap

/-- Closed check of C10 on a mixed table: gene `CACNA1C` is hit only by a
probability-0 row (effect 2) while another row has probability 1; the
output still records `CACNA1C` with weighted score 0 and max score at
least 2. -/
theorem zero_prob_rows_still_recorded_inst :
    exRowZero ∈ exRowsMixed ∧
      (gCACNA1C, (2 : ℚ)) ∈ exRowZero.genes ∧
      (∀ r' ∈ exRowsMixed, ∀ e', (gCACNA1C, e') ∈ r'.genes →
        fillPP r' = 0) ∧
      hasGene (aggregateRows exRowsMixed) gCACNA1C = true ∧
      (2 : ℚ) ≤ getMx (aggregateRows exRowsMixed) gCACNA1C ∧
      (aggregateRows exRowsMixed).find? (fun en => en.1 = gCACNA1C) =
        some (gCACNA1C, 0, getMx (aggregateRows exRowsMixed) gCACNA1C) ∧
      resultRow gCACNA1C 0 (getMx (aggregateRows exRowsMixed) gCACNA1C)
        ∈ resultsOf exRowsMixed := by
  have hr : exRowZero ∈ exRowsMixed := by simp [exRowsMixed]
  have hg : (gCACNA1C, (2 : ℚ)) ∈ exRowZero.genes := by
    simp [exRowZero]
  have hz : ∀ r' ∈ exRowsMixed, ∀ e', (gCACNA1C, e') ∈ r'.genes →
      fillPP r' = 0 := by
    simp [exRowsMixed, exRowZero, fillPP, gCACNA1C, gGRIN2A]
  have h := zero_prob_rows_still_recorded exRowsMixed exRowZero gCACNA1C 2 hr hg
  obtain ⟨h1, h2, h3⟩ := h
  obtain ⟨h4, h5⟩ := h3 hz
  exact ⟨hr, hg, hz, h1, h2, h4, h5⟩

/-- C9 (amended): every record emitted by `aggregate_scores` carries
exactly the fields `gene`, `weighted_score` and `max_score` — in
particular no `n_variants` field (the source only mentions `n_variants`
in a comment). -/
theorem results_rows_have_fixed_fields (rows : List VariantRow)
    (row : List (String × (String ⊕ ℚ))) (hrow : row ∈ resultsOf rows) :
    row.map Prod.fst = ["gene", "weighted_score", "max_score"] := by
  unfold resultsOf at hrow
  obtain ⟨en, _, rfl⟩ := List.mem_map.mp hrow
  rfl

/-- C9 counterexample: on a one-row input the aggregator emits a
(non-empty) table whose only record has no `n_variants` key, refuting the
claim that every emitted record includes an `n_variants` field. -/
theorem results_lack_n_variants :
    resultsOf exRowsPos = [resultRow gGRIN2A 2 2] ∧
      "n_variants" ∉ (resultRow gGRIN2A 2 2).map Prod.fst := by
  constructor
  · norm_num [resultsOf, sortByW, aggregateRows, processRow, updateGene,
      fillPP, exRowsPos, List.insertionSort, List.orderedInsert]
  · simp [resultRow]

/-- Closed check of C9's amended statement at the same one-row input. -/
theorem results_rows_have_fixed_fields_inst :
    resultRow gGRIN2A 2 2 ∈ resultsOf exRowsPos ∧
      (resultRow gGRIN2A 2 2).map Prod.fst =
        ["gene", "weighted_score", "max_score"] := by
  have h1 : resultsOf exRowsPos = [resultRow gGRIN2A 2 2] := by
    norm_num [resultsOf, sortByW, aggregateRows, processRow, updateGene,
      fillPP, exRowsPos, List.insertionSort, List.orderedInsert]
  refine ⟨by rw [h1]; exact List.mem_singleton_self _, ?_⟩
  exact results_rows_have_fixed_fields exRowsPos _
    (by rw [h1]; exact List.mem_singleton_self _)

/-! ### Lemmas on empirical null calibration -/

theorem length_attachRanks (n : ℕ) :
    ∀ (i : ℕ) (l : List (String × ℚ)), (attachRanks n i l).length = l.length := by
  intro i l
  induction l generalizing i with
  | nil => rfl
  | cons e rest ih => simp [attachRanks, ih]

theorem attachRanks_getElem? (n : ℕ) :
    ∀ (l : List (String × ℚ)) (i j : ℕ),
      (attachRanks n i l)[j]? = (l[j]?).map
        (fun e => (⟨e.1, e.2, i + j + 1,
          ((i : ℚ) + (j : ℚ) + 1) / (n : ℚ)⟩ : GeneRow)) := by
  intro l
  induction l with
  | nil => intro i j; simp [attachRanks]
  | cons e rest ih =>
    intro i j
    match j with
    | 0 =>
      simp [attachRanks]
    | jj + 1 =>
      rw [show attachRanks n i (e :: rest) =
        (⟨e.1, e.2, i + 1, ((i : ℚ) + 1) / (n : ℚ)⟩ : GeneRow) ::
          attachRanks n (i + 1) rest from rfl]
      rw [List.getElem?_cons_succ, List.getElem?_cons_succ, ih (i + 1) jj]
      rcases hr : rest[jj]? with _ | e'
      · simp
      · have h1 : i + 1 + jj + 1 = i + (jj + 1) + 1 := by omega
        have h2 : ((i + 1 : ℕ) : ℚ) + (jj : ℚ) + 1 =
            (i : ℚ) + ((jj + 1 : ℕ) : ℚ) + 1 := by
          push_cast
          ring
        simp only [Option.map_some']
        rw [h1, h2]

theorem length_rankedTable (uni : List String) (scores : List (String × ℚ)) :
    (rankedTable uni scores).length = nGenes uni scores := by
  rw [rankedTable, length_attachRanks, sortScoresDesc,
    List.length_insertionSort]
  rfl

/-- C6: in the full calibrated background table, the row at 0-based sorted
position `j` carries 1-based rank `j + 1` and empirical p-value
`(j + 1) / N` where `N` is the total gene count; hence the top-ranked row
has p-value `1 / N` and every empirical p-value lies in `(0, 1]`. -/
theorem empirical_p_is_rank_over_n (uni : List String)
    (scores : List (String × ℚ)) (j : ℕ) (row : GeneRow)
    (hrow : (rankedTable uni scores)[j]? = some row) :
    row.rank = j + 1 ∧
      row.p_empirical = ((j : ℚ) + 1) / (nGenes uni scores : ℚ) ∧
      0 < row.p_empirical ∧ row.p_empirical ≤ 1 := by
  have hj : j < (rankedTable uni scores).length := by
    by_contra hjn
    push_neg at hjn
    rw [List.getElem?_eq_none hjn] at hrow
    exact Option.noConfusion hrow
  rw [length_rankedTable] at hj
  have hN : 0 < nGenes uni scores := by omega
  have hNQ : (0 : ℚ) < (nGenes uni scores : ℚ) := by exact_mod_cast hN
  rw [rankedTable, attachRanks_getElem?] at hrow
  rcases hs : (sortScoresDesc (fullGenome uni scores))[j]? with _ | e
  · rw [hs] at hrow
    exact Option.noConfusion hrow
  · rw [hs] at hrow
    simp only [Option.map_some'] at hrow
    have hrow' := (Option.some.injEq _ _).mp hrow
    subst hrow'
    have hcast : ((0 : ℕ) : ℚ) + (j : ℚ) + 1 = (j : ℚ) + 1 := by
      push_cast
      ring
    have hle : ((j : ℚ) + 1) ≤ (nGenes uni scores : ℚ) := by
      exact_mod_cast Nat.succ_le_of_lt hj
    refine ⟨by simp, ?_, ?_, ?_⟩
    · dsimp only
      rw [hcast]
    · dsimp only
      rw [hcast]
      exact div_pos (by positivity) hNQ
    · dsimp only
      rw [hcast, div_le_one hNQ]
      exact hle

/-- Closed check of C6 on a two-gene universe where one gene scores 3:
the top-ranked row is that gene with rank 1 and empirical p-value 1/2. -/
theorem empirical_p_is_rank_over_n_inst :
    (rankedTable exUniRank exScoresRank)[0]? =
        some ⟨gRBFOX1, 3, 1, 1 / 2⟩ ∧
      (⟨gRBFOX1, 3, 1, 1 / 2⟩ : GeneRow).rank = 0 + 1 ∧
      (⟨gRBFOX1, 3, 1, 1 / 2⟩ : GeneRow).p_empirical =
        ((0 : ℚ) + 1) / (nGenes exUniRank exScoresRank : ℚ) ∧
      0 < (⟨gRBFOX1, 3, 1, 1 / 2⟩ : GeneRow).p_empirical ∧
      (⟨gRBFOX1, 3, 1, 1 / 2⟩ : GeneRow).p_empirical ≤ 1 := by
  have hrow : (rankedTable exUniRank exScoresRank)[0]? =
      some ⟨gRBFOX1, 3, 1, 1 / 2⟩ := by
    norm_num [rankedTable, attachRanks, sortScoresDesc, fullGenome, nGenes,
      exUniRank, exScoresRank, gHCN1, gRBFOX1, List.insertionSort,
      List.orderedInsert, List.lookup]
  have h := empirical_p_is_rank_over_n exUniRank exScoresRank 0 _ hrow
  exact ⟨hrow, h.1, h.2.1, h.2.2.1, h.2.2.2⟩

theorem mem_fullGenome_of_uni (uni : List String) (scores : List (String × ℚ))
    (g : String) (v : ℚ) (hg : g ∈ uni)
    (hmem : (g, v) ∈ fullGenome uni scores) :
    v = (scores.lookup g).getD 0 := by
  rw [fullGenome] at hmem
  rcases List.mem_append.mp hmem with h | h
  · obtain ⟨g', _, hgv⟩ := List.mem_map.mp h
    have h1 : g' = g := congrArg Prod.fst hgv
    have h2 : (scores.lookup g').getD 0 = v := congrArg Prod.snd hgv
    rw [← h2, h1]
  · have := (List.mem_filter.mp h).2
    simp only [decide_eq_true_eq] at this
    exact absurd hg this

theorem mem_attachRanks (n : ℕ) :
    ∀ (i : ℕ) (l : List (String × ℚ)) (row : GeneRow),
      row ∈ attachRanks n i l → (row.gene, row.raw_score) ∈ l := by
  intro i l
  induction l generalizing i with
  | nil => intro row h; simp [attachRanks] at h
  | cons e rest ih =>
    intro row h
    rw [show attachRanks n i (e :: rest) =
      (⟨e.1, e.2, i + 1, ((i : ℚ) + 1) / (n : ℚ)⟩ : GeneRow) ::
        attachRanks n (i + 1) rest from rfl] at h
    rcases List.mem_cons.mp h with h1 | h1
    · rw [h1]
      exact List.mem_cons_self _ _
    · exact List.mem_cons_of_mem _ (ih (i + 1) row h1)

theorem mem_rankedTable (uni : List String) (scores : List (String × ℚ))
    (row : GeneRow) (h : row ∈ rankedTable uni scores) :
    (row.gene, row.raw_score) ∈ fullGenome uni scores := by
  have h1 := mem_attachRanks (nGenes uni scores) 0 _ row h
  exact ((List.perm_insertionSort _ _).mem_iff).mp h1

/-- C1 (amended): the *internal* full-genome table of
`calculate_empirical_stats` contains exactly one record for every
universe gene (zero scores included), but the *returned* output table is
filtered to `raw_score > 0`: a universe gene whose weighted score is not
positive — in particular every zero-score gene — is absent from the
emitted calibrated table. -/
theorem universe_coverage_and_output_filter (uni : List String)
    (scores : List (String × ℚ)) (hnd : uni.Nodup) (g : String)
    (hg : g ∈ uni) :
    (fullGenome uni scores).countP (fun e => e.1 = g) = 1 ∧
      ((scores.lookup g).getD 0 ≤ 0 →
        g ∉ (outputTable uni scores).map (fun r => r.gene)) := by
  constructor
  · rw [fullGenome, List.countP_append]
    have h1 : (uni.map fun g' => (g', (scores.lookup g').getD 0)).countP
        (fun e => e.1 = g) = 1 := by
      rw [List.countP_map]
      have : (fun g' => decide ((g', (scores.lookup g').getD 0).1 = g)) =
          (fun g' => g' == g) := by
        funext g'
        by_cases h : g' = g
        · simp [h]
        · simp [h, beq_iff_eq]
      rw [show ((fun e => decide (e.1 = g)) ∘
          (fun g' => (g', (scores.lookup g').getD 0))) =
          (fun g' => g' == g) from this]
      exact (List.count_eq_one_of_mem hnd hg)
    have h2 : (scores.filter fun e => e.1 ∉ uni).countP
        (fun e => e.1 = g) = 0 := by
      rw [List.countP_eq_zero]
      intro e he
      have hnot := (List.mem_filter.mp he).2
      simp only [decide_eq_true_eq] at hnot ⊢
      intro heq
      exact hnot (heq ▸ hg)
    rw [h1, h2]
  · intro hle hmem
    obtain ⟨row, hrow, hgene⟩ := List.mem_map.mp hmem
    have hfil := List.mem_filter.mp hrow
    have hpos : 0 < row.raw_score := by
      have := hfil.2
      simpa using this
    have hfull := mem_rankedTable uni scores row hfil.1
    rw [hgene] at hfull
    have := mem_fullGenome_of_uni uni scores g row.raw_score hg hfull
    rw [this] at hpos
    exact absurd hle (not_le.mpr hpos)

/-- C1 counterexample: with universe `[TP53, DRD2]` and one scored gene
`TP53`, the universe gene `DRD2` has weighted score 0.0 and is dropped by
the `raw_score > 0` output filter, so the returned calibrated table does
not contain a record for every universe gene. -/
theorem output_omits_zero_score_gene :
    gDRD2 ∈ exUni ∧
      gDRD2 ∉ (outputTable exUni exScores).map (fun r => r.gene) := by
  constructor
  · simp [exUni]
  · norm_num [outputTable, rankedTable, attachRanks, sortScoresDesc,
      fullGenome, nGenes, exUni, exScores, gTP53, gDRD2,
      List.insertionSort, List.orderedInsert, List.lookup, List.filter]
    decide

/-- Closed check of C1's amended statement on the same two-gene universe. -/
theorem universe_coverage_and_output_filter_inst :
    exUni.Nodup ∧ gDRD2 ∈ exUni ∧
      (fullGenome exUni exScores).countP (fun e => e.1 = gDRD2) = 1 ∧
      ((exScores.lookup gDRD2).getD 0 ≤ 0 →
        gDRD2 ∉ (outputTable exUni exScores).map (fun r => r.gene)) := by
  have hnd : exUni.Nodup := by
    simp [exUni, gTP53, gDRD2]
  have hg : gDRD2 ∈ exUni := by simp [exUni]
  have h := universe_coverage_and_output_filter exUni exScores hnd gDRD2 hg
  exact ⟨hnd, hg, h.1, h.2⟩

/-- C5 (amended): `calculate_empirical_stats` computes
`(raw_score - mu) / sigma` unconditionally; when the genome-wide standard
deviation is 0 the division is by zero and every gene's z-score is
non-finite (`none` in this embedding, `nan` in NumPy) — it is not defined
to 0.0, since the script has no `std == 0` guard. -/
theorem std_zero_all_z_nonfinite (uni : List String)
    (scores : List (String × ℚ)) (h : sigmaOf uni scores = 0) :
    ∀ p ∈ zScores uni scores, p.2 = none := by
  intro p hp
  rw [zScores] at hp
  obtain ⟨e, _, rfl⟩ := List.mem_map.mp hp
  show fdiv _ _ = none
  rw [h, fdiv, if_pos rfl]

/-- C5 counterexample: a flat background (every raw score 0.0) has
standard deviation 0, and the gene `SETD1A` then receives the non-finite
z-score `none`, not the 0.0 the claim requires. -/
theorem std_zero_z_not_zero :
    sigmaOf exUniFlat ([] : List (String × ℚ)) = 0 ∧
      (gSETD1A, (none : Option ℝ)) ∈
        zScores exUniFlat ([] : List (String × ℚ)) ∧
      (none : Option ℝ) ≠ some 0 := by
  have hsq : sigmaSqOf exUniFlat ([] : List (String × ℚ)) = 0 := by
    norm_num [sigmaSqOf, muOf, nGenes, fullGenome, exUniFlat, List.lookup]
  have hs : sigmaOf exUniFlat ([] : List (String × ℚ)) = 0 := by
    rw [sigmaOf, hsq]
    rw [Rat.cast_zero, Real.sqrt_zero]
  refine ⟨hs, ?_, by simp⟩
  have hfg : fullGenome exUniFlat ([] : List (String × ℚ)) =
      [(gSETD1A, (0 : ℚ)), (gXPO7, 0)] := by
    norm_num [fullGenome, exUniFlat, List.lookup]
  have hz : zScores exUniFlat ([] : List (String × ℚ)) =
      [(gSETD1A, none), (gXPO7, none)] := by
    rw [zScores, hfg, List.map_cons, List.map_cons, List.map_nil, hs]
    simp [fdiv]
  rw [hz]
  simp

/-- Closed check of C5's amended statement on the same flat background:
the standard deviation is 0 and every z-score is non-finite. -/
theorem std_zero_all_z_nonfinite_inst :
    sigmaOf exUniFlat ([] : List (String × ℚ)) = 0 ∧
      ∀ p ∈ zScores exUniFlat ([] : List (String × ℚ)), p.2 = none := by
  have hsq : sigmaSqOf exUniFlat ([] : List (String × ℚ)) = 0 := by
    norm_num [sigmaSqOf, muOf, nGenes, fullGenome, exUniFlat, List.lookup]
  have hs : sigmaOf exUniFlat ([] : List (String × ℚ)) = 0 := by
    rw [sigmaOf, hsq]
    rw [Rat.cast_zero, Real.sqrt_zero]
  exact ⟨hs, std_zero_all_z_nonfinite exUniFlat [] hs⟩
